import Mathlib

/-!
Shallow embedding of the tplan repository: `src/lib.rs` (the `Task` /
`TodoFile` persistence codec) and `src/main.rs` (the `App` editor state
machine).  Rust strings are modelled as lists of characters together with
their UTF-8 byte lengths, since the Edit-mode cursor of the program is a
byte index; Rust panics (debug-build integer underflow, out-of-bounds
indexing, character-boundary violations of String::insert and
String::remove) are modelled by `Option`-returning operations where `none`
stands for a panic.
-/

namespace TPlan

/-- Code points with the Unicode White_Space property, the predicate used by
Rust's char::is_whitespace, which str::trim calls. -/
def isRustWhitespace (c : Char) : Bool :=
  let n := c.toNat
  decide ((0x09 ≤ n ∧ n ≤ 0x0D) ∨ n = 0x20 ∨ n = 0x85 ∨ n = 0xA0 ∨
    n = 0x1680 ∨ (0x2000 ≤ n ∧ n ≤ 0x200A) ∨ n = 0x2028 ∨ n = 0x2029 ∨
    n = 0x202F ∨ n = 0x205F ∨ n = 0x3000)

/-- Leading-whitespace removal, as in Rust str::trim_start. -/
def trimStart (l : List Char) : List Char := l.dropWhile isRustWhitespace

/-- Trailing-whitespace removal, as in Rust str::trim_end. -/
def trimEnd (l : List Char) : List Char := l.rdropWhile isRustWhitespace

/-- Rust str::trim: remove leading and trailing whitespace. -/
def trim (l : List Char) : List Char := trimEnd (trimStart l)

/-- Rust char::len_utf8: the number of bytes of the UTF-8 encoding of a
character.  Rust String indices (String::len, String::insert,
String::remove, and the cursor arithmetic of the Edit mode) count these
bytes, not characters. -/
def utf8Len (c : Char) : Nat :=
  if c.toNat < 0x80 then 1
  else if c.toNat < 0x800 then 2
  else if c.toNat < 0x10000 then 3
  else 4

/-- Rust String::len: the byte length of a string. -/
def byteLen : List Char → Nat
  | [] => 0
  | c :: l => utf8Len c + byteLen l

/-- A single-byte (ASCII) character, on which byte and character indices
coincide. -/
def isAscii (c : Char) : Bool := decide (c.toNat < 0x80)

/-- Rust String::insert at a byte index: `none` models the panic raised
when the index is larger than the byte length or not on a character
boundary. -/
def insertAtByte (l : List Char) (i : Nat) (c : Char) : Option (List Char) :=
  match l, i with
  | l, 0 => some (c :: l)
  | [], _ + 1 => none
  | d :: rest, i =>
    if i < utf8Len d then none
    else (insertAtByte rest (i - utf8Len d) c).map (fun r => d :: r)

/-- Rust String::remove at a byte index: `none` models the panic raised
when the index is at or past the byte length or not on a character
boundary. -/
def removeAtByte (l : List Char) (i : Nat) : Option (List Char) :=
  match l, i with
  | [], _ => none
  | _ :: rest, 0 => some rest
  | d :: rest, i =>
    if i < utf8Len d then none
    else (removeAtByte rest (i - utf8Len d)).map (fun r => d :: r)

/-- The `Error` enum of src/lib.rs; its only variant wraps a std::io::Error,
whose payload is irrelevant to the pure fragment modelled here. -/
inductive Error where
  | ioError
deriving DecidableEq, Repr

/-- The `Task` struct of src/lib.rs. -/
structure Task where
  summary : List Char
  completed : Bool
deriving DecidableEq, Repr

/-- `Task::default()` (derived `Default`): empty summary, not completed. -/
def Task.default : Task := ⟨[], false⟩

/-- `Task::from_str` from src/lib.rs: trim the line; if it starts with the
character x the task is completed with the rest (re-trimmed) as summary,
otherwise it is pending with the whole trimmed line as summary. -/
def Task.from_str (s : List Char) : Except Error Task :=
  let s := trim s
  if s.head? = some 'x' then
    .ok ⟨trim (s.drop 1), true⟩
  else
    .ok ⟨s, false⟩

/-- `Task::to_string` (the `ToString` impl) from src/lib.rs: completed tasks
render as "x " followed by the summary, pending tasks as two spaces followed
by the summary. -/
def Task.to_string (t : Task) : List Char :=
  if t.completed then 'x' :: ' ' :: t.summary else ' ' :: ' ' :: t.summary

/-- Rust str::split_inclusive on the newline character: each piece keeps its
terminating newline; an empty input yields no pieces. -/
def splitInclNl : List Char → List (List Char)
  | [] => []
  | c :: rest =>
    if c = '\n' then ['\n'] :: splitInclNl rest
    else
      match splitInclNl rest with
      | [] => [[c]]
      | l :: ls => (c :: l) :: ls

/-- The per-piece map of Rust str::lines: strip one trailing newline, and
when one was stripped also strip one trailing carriage return. -/
def lineMap (l : List Char) : List Char :=
  if l.getLast? = some '\n' then
    let s := l.dropLast
    if s.getLast? = some '\r' then s.dropLast else s
  else l

/-- Rust str::lines, as used by `TodoFile::load`. -/
def rustLines (s : List Char) : List (List Char) :=
  (splitInclNl s).map lineMap

/-- The collect-over-Result step of `TodoFile::load`: parse each line in
order, the first error (there is none in practice) aborting the whole
parse. -/
def parseTasks : List (List Char) → Except Error (List Task)
  | [] => .ok []
  | l :: ls =>
    match Task.from_str l with
    | .error e => .error e
    | .ok t =>
      match parseTasks ls with
      | .error e => .error e
      | .ok ts => .ok (t :: ts)

/-- The pure content side of `TodoFile::load`: split into lines, discard
empty lines, parse each remaining line in order. -/
def parseContents (contents : List Char) : Except Error (List Task) :=
  parseTasks ((rustLines contents).filter (fun l => !l.isEmpty))

/-- Result of a `TodoFile::load` call: the parsed tasks together with the
content of the backing file after the call. -/
structure LoadOutcome where
  tasks : List Task
  fileAfter : List Char
deriving DecidableEq, Repr

/-- `TodoFile::load` from src/lib.rs, modelled over the optional current
content of the backing file (`none`: the path does not exist).  When the
path does not exist the function writes an empty file and returns no tasks;
otherwise it parses the content and leaves the file unchanged. -/
def loadFile : Option (List Char) → Except Error LoadOutcome
  | none => .ok ⟨[], []⟩
  | some contents =>
    match parseContents contents with
    | .error e => .error e
    | .ok ts => .ok ⟨ts, contents⟩

/-- The content written by `TodoFile::save`: the line of each task followed
by a newline, in sequence order. -/
def serializeTasks : List Task → List Char
  | [] => []
  | t :: ts => t.to_string ++ '\n' :: serializeTasks ts

/-- The `TodoFile` struct of src/lib.rs (path modelled as a string). -/
structure TodoFile where
  path : List Char
  tasks : List Task
deriving DecidableEq, Repr

/-- The `Mode` enum of src/main.rs. -/
inductive Mode where
  | view
  | select (i : Nat)
  | edit (item : Nat) (cursor : Nat) (text : List Char)
deriving DecidableEq, Repr

/-- The `App` struct of src/main.rs. -/
structure App where
  todo_file : TodoFile
  mode : Mode
  is_running : Bool
  is_dirty : Bool
deriving DecidableEq, Repr

/-- `App::quit`. -/
def App.quit (a : App) : App := { a with is_running := false }

/-- `App::select_first`. -/
def App.select_first (a : App) : App := { a with mode := .select 0 }

/-- `App::select_last`; tasks.len() - 1 underflows (a debug-build panic) on
an empty task list. -/
def App.select_last (a : App) : Option App :=
  if a.todo_file.tasks.length = 0 then none
  else some { a with mode := .select (a.todo_file.tasks.length - 1) }

/-- `App::select_next`; when already selecting, tasks.len() - 1 underflows
(a debug-build panic) on an empty task list. -/
def App.select_next (a : App) : Option App :=
  match a.mode with
  | .select i =>
    if a.todo_file.tasks.length = 0 then none
    else some { a with mode := .select (min (i + 1) (a.todo_file.tasks.length - 1)) }
  | _ => some { a with mode := .select 0 }

/-- `App::select_prev`; i.saturating_sub(1) is Nat subtraction. -/
def App.select_prev (a : App) : App :=
  match a.mode with
  | .select i => { a with mode := .select (i - 1) }
  | _ => { a with mode := .select 0 }

/-- `App::complete_selected`; tasks[i] panics when i is out of bounds. -/
def App.complete_selected (a : App) : Option App :=
  match a.mode with
  | .select i =>
    if h : i < a.todo_file.tasks.length then
      let t := a.todo_file.tasks.get ⟨i, h⟩
      some { a with
        todo_file := { a.todo_file with
          tasks := a.todo_file.tasks.set i { t with completed := !t.completed } },
        is_dirty := true }
    else none
  | _ => some a

/-- `App::delete_selected`; Vec::remove panics when i is out of bounds.  The
mode keeps the now possibly stale index i. -/
def App.delete_selected (a : App) : Option App :=
  match a.mode with
  | .select i =>
    if i < a.todo_file.tasks.length then
      some { a with
        todo_file := { a.todo_file with tasks := a.todo_file.tasks.eraseIdx i },
        is_dirty := true }
    else none
  | _ => some a

/-- `App::edit_task`; the index defaults to 0 outside Select mode, and
tasks[index] panics when the index is out of bounds.  The cursor starts at
text.len(), the byte length of the copied summary. -/
def App.edit_task (a : App) : Option App :=
  let index := match a.mode with | .select i => i | _ => 0
  if h : index < a.todo_file.tasks.length then
    let text := (a.todo_file.tasks.get ⟨index, h⟩).summary
    some { a with mode := .edit index (byteLen text) text }
  else none

/-- `App::add_edit_task`; Vec::insert panics when the index exceeds the
length.  Inserts a default task and starts editing it with an empty buffer
and cursor 0. -/
def App.add_edit_task (a : App) (index : Nat) : Option App :=
  if index ≤ a.todo_file.tasks.length then
    some { a with
      todo_file := { a.todo_file with
        tasks := List.insertIdx index Task.default a.todo_file.tasks },
      mode := .edit index 0 [] }
  else none

/-- `App::insert_task`. -/
def App.insert_task (a : App) : Option App :=
  let index := match a.mode with | .select i => i - 1 | _ => 0
  a.add_edit_task index

/-- `App::append_task`. -/
def App.append_task (a : App) : Option App :=
  let index := match a.mode with | .select i => i + 1 | _ => a.todo_file.tasks.length
  a.add_edit_task index

/-- `App::save_edit`; note that is_dirty is set unconditionally, outside the
if-let on Edit mode.  tasks[item] panics when item is out of bounds. -/
def App.save_edit (a : App) : Option App :=
  match a.mode with
  | .edit item _ text =>
    if h : item < a.todo_file.tasks.length then
      let t := a.todo_file.tasks.get ⟨item, h⟩
      some { a with
        todo_file := { a.todo_file with
          tasks := a.todo_file.tasks.set item { t with summary := text } },
        mode := .select item,
        is_dirty := true }
    else none
  | _ => some { a with is_dirty := true }

/-- `App::cancel_edit`. -/
def App.cancel_edit (a : App) : App :=
  match a.mode with
  | .edit item _ _ => { a with mode := .select item }
  | _ => a

/-- The symbolic key events the run loop of src/main.rs dispatches on. -/
inductive Key where
  | esc | enter | backspace | del | left | right | up | down | home | endKey
  | char (c : Char)
  | other
deriving DecidableEq, Repr

/-- The View arm of the key dispatch of fn run in src/main.rs.  The Rust
match tests the character payloads in order, modelled by the if chain. -/
def App.handleKeyView (a : App) (k : Key) : Option App :=
  match k with
  | .esc => some a.quit
  | .home => some a.select_first
  | .endKey => a.select_last
  | .down => a.select_next
  | .up => some a.select_prev
  | .char c =>
    if c = 'q' then some a.quit
    else if c = 'a' then a.append_task
    else if c = 'g' then some a.select_first
    else if c = 'G' then a.select_last
    else if c = 'j' then a.select_next
    else if c = 'k' then some a.select_prev
    else some a
  | _ => some a

/-- The Select arm of the key dispatch of fn run in src/main.rs. -/
def App.handleKeySelect (a : App) (k : Key) : Option App :=
  match k with
  | .home => some a.select_first
  | .endKey => a.select_last
  | .down => a.select_next
  | .up => some a.select_prev
  | .enter => a.complete_selected
  | .del => a.delete_selected
  | .char c =>
    if c = 'g' then some a.select_first
    else if c = 'G' then a.select_last
    else if c = 'j' then a.select_next
    else if c = 'k' then some a.select_prev
    else if c = ' ' then a.complete_selected
    else if c = 'x' then a.delete_selected
    else if c = 'i' then a.insert_task
    else if c = 'a' then a.append_task
    else if c = 'c' then a.edit_task
    else if c = 'e' then a.edit_task
    else if c = 'q' then some a.quit
    else some a
  | _ => some a

/-- The Edit arm of the key dispatch of fn run in src/main.rs.  The cursor
is a byte index and moves in byte steps; String::insert and String::remove
panic (none) on an out-of-range index or off a character boundary, and
text.len() in the Delete and Right guards is the byte length. -/
def App.handleKeyEdit (a : App) (item cursor : Nat) (text : List Char) (k : Key) :
    Option App :=
  match k with
  | .esc => some a.cancel_edit
  | .char c =>
    match insertAtByte text cursor c with
    | none => none
    | some t => some { a with mode := .edit item (cursor + 1) t }
  | .backspace =>
    if cursor > 0 then
      match removeAtByte text (cursor - 1) with
      | none => none
      | some t => some { a with mode := .edit item (cursor - 1) t }
    else some a
  | .del =>
    if cursor < byteLen text then
      match removeAtByte text cursor with
      | none => none
      | some t => some { a with mode := .edit item cursor t }
    else some a
  | .left =>
    if cursor > 0 then some { a with mode := .edit item (cursor - 1) text }
    else some a
  | .right =>
    if cursor < byteLen text then some { a with mode := .edit item (cursor + 1) text }
    else some a
  | .enter => a.save_edit
  | _ => some a

/-- The key dispatch of fn run in src/main.rs (state change only; the redraw
flag and drawing are not modelled). -/
def App.handleKey (a : App) (k : Key) : Option App :=
  match a.mode with
  | .view => a.handleKeyView k
  | .select _ => a.handleKeySelect k
  | .edit item cursor text => a.handleKeyEdit item cursor text k

/-- Run a list of key events in order, propagating any panic. -/
def App.handleKeys (a : App) : List Key → Option App
  | [] => some a
  | k :: ks =>
    match a.handleKey k with
    | none => none
    | some b => b.handleKeys ks

/-- parseLine as the specification words it: trims surrounding whitespace;
if the trimmed text starts with the lowercase character x, the record is
completed and the summary is the remainder after that leading x, re-trimmed;
otherwise the record is pending with the full trimmed text as summary. -/
def specParseLine (line : List Char) : Task :=
  let t := trim line
  if t.head? = some 'x' then ⟨trim (t.drop 1), true⟩ else ⟨t, false⟩

/-- Iterate `App.select_next`, propagating any panic. -/
def selNexts : Nat → App → Option App
  | 0, a => some a
  | k + 1, a =>
    match a.select_next with
    | none => none
    | some b => selNexts k b

/-- The text-buffer keys of Edit mode (character insertion, backspace,
forward delete and the two cursor moves), restricted to single-byte
characters, on which the byte-indexed cursor behaves like a character
index. -/
def asciiTextKey : Key → Bool
  | .char c => isAscii c
  | .backspace => true
  | .del => true
  | .left => true
  | .right => true
  | _ => false

/-- The Editing-mode cursor invariant: whenever the mode carries an edit
buffer, the byte cursor does not exceed the byte length of the buffer. -/
def EditInv (a : App) : Prop :=
  ∀ i cur txt, a.mode = .edit i cur txt → cur ≤ byteLen txt

instance {ε α : Type} [DecidableEq ε] [DecidableEq α] : DecidableEq (Except ε α)
  | .ok a, .ok b =>
    if h : a = b then .isTrue (by rw [h]) else .isFalse (fun e => h (Except.ok.inj e))
  | .error a, .error b =>
    if h : a = b then .isTrue (by rw [h]) else .isFalse (fun e => h (Except.error.inj e))
  | .ok _, .error _ => .isFalse Except.noConfusion
  | .error _, .ok _ => .isFalse Except.noConfusion

end TPlan
namespace TPlan

theorem from_str_eq (s : List Char) :
    Task.from_str s =
      if (trim s).head? = some 'x' then .ok ⟨trim ((trim s).drop 1), true⟩
      else .ok ⟨trim s, false⟩ := rfl

theorem to_string_false (S : List Char) : Task.to_string ⟨S, false⟩ = ' ' :: ' ' :: S := rfl

theorem to_string_true (S : List Char) : Task.to_string ⟨S, true⟩ = 'x' :: ' ' :: S := rfl

theorem trimStart_eq_self_of_trim {S : List Char} (h : trim S = S) :
    trimStart S = S := by
  have h1 : trimStart S <:+ S := List.dropWhile_suffix _
  have h2 : trim S <+: trimStart S := List.rdropWhile_prefix _ _
  refine h1.eq_of_length ?_
  have e1 := h1.length_le
  have e2 := h2.length_le
  rw [h] at e2
  omega

theorem trimEnd_eq_self_of_trim {S : List Char} (h : trim S = S) :
    trimEnd S = S := by
  have hs := trimStart_eq_self_of_trim h
  rw [trim, hs] at h
  exact h

theorem trimStart_cons_ws {c : Char} {l : List Char} (h : isRustWhitespace c = true) :
    trimStart (c :: l) = trimStart l := by
  simp [trimStart, List.dropWhile_cons, h]

theorem trimStart_cons_not_ws {c : Char} {l : List Char} (h : isRustWhitespace c = false) :
    trimStart (c :: l) = c :: l := by
  simp [trimStart, List.dropWhile_cons, h]

theorem trim_space_space {S : List Char} (h : trim S = S) :
    trim (' ' :: ' ' :: S) = S := by
  have hs := trimStart_eq_self_of_trim h
  have he := trimEnd_eq_self_of_trim h
  rw [trim, trimStart_cons_ws (by decide), trimStart_cons_ws (by decide), hs, he]

theorem trim_space {S : List Char} (h : trim S = S) :
    trim (' ' :: S) = S := by
  have hs := trimStart_eq_self_of_trim h
  have he := trimEnd_eq_self_of_trim h
  rw [trim, trimStart_cons_ws (by decide), hs, he]

theorem trimEnd_x_space {S : List Char} (h : trimEnd S = S) (hne : S ≠ []) :
    trimEnd ('x' :: ' ' :: S) = 'x' :: ' ' :: S := by
  rcases S.eq_nil_or_concat with rfl | ⟨S', c, rfl⟩
  · exact absurd rfl hne
  · simp only [List.concat_eq_append] at h ⊢
    have hc : ¬ isRustWhitespace c = true := by
      have := List.rdropWhile_eq_self_iff.mp h (by simp)
      rwa [List.getLast_append] at this
    show trimEnd (('x' :: ' ' :: S') ++ [c]) = _
    rw [trimEnd, List.rdropWhile_concat_neg _ _ _ hc]
    simp

theorem from_str_to_string {t : Task} (h : trim t.summary = t.summary)
    (hx : t.completed = false → t.summary.head? ≠ some 'x') :
    Task.from_str t.to_string = .ok t := by
  obtain ⟨S, c⟩ := t
  cases c
  · have hh := hx rfl
    rw [to_string_false, from_str_eq, trim_space_space h, if_neg hh]
  · rw [to_string_true]
    rcases eq_or_ne S [] with rfl | hne
    · decide
    · have he := trimEnd_eq_self_of_trim h
      have htrim : trim ('x' :: ' ' :: S) = 'x' :: ' ' :: S := by
        rw [trim, trimStart_cons_not_ws (by decide), trimEnd_x_space he hne]
      rw [from_str_eq, htrim, if_pos (show ('x' :: ' ' :: S).head? = some 'x' from rfl)]
      simp only [List.drop_succ_cons, List.drop_zero]
      rw [trim_space h]

theorem splitInclNl_cons_nl (rest : List Char) :
    splitInclNl ('\n' :: rest) = ['\n'] :: splitInclNl rest := by
  rw [splitInclNl]
  simp

theorem splitInclNl_append {l : List Char} (rest : List Char) (h : '\n' ∉ l) :
    splitInclNl (l ++ '\n' :: rest) = (l ++ ['\n']) :: splitInclNl rest := by
  induction l with
  | nil => simpa using splitInclNl_cons_nl rest
  | cons c l ih =>
    have hc : ¬ c = '\n' := fun e => h (e ▸ List.mem_cons_self c l)
    have h' : '\n' ∉ l := fun m => h (List.mem_cons_of_mem _ m)
    rw [List.cons_append, splitInclNl, if_neg hc, ih h']
    rfl

theorem lineMap_concat_nl {l : List Char} (h : l.getLast? ≠ some '\r') :
    lineMap (l ++ ['\n']) = l := by
  rw [lineMap, List.getLast?_concat, if_pos rfl, List.dropLast_concat, if_neg h]

theorem rustLines_append {l : List Char} (rest : List Char) (hnl : '\n' ∉ l)
    (hcr : l.getLast? ≠ some '\r') :
    rustLines (l ++ '\n' :: rest) = l :: rustLines rest := by
  rw [rustLines, splitInclNl_append rest hnl, List.map_cons, lineMap_concat_nl hcr, rustLines]

theorem nl_not_mem_to_string {t : Task} (h : '\n' ∉ t.summary) :
    '\n' ∉ t.to_string := by
  obtain ⟨S, c⟩ := t
  cases c
  · rw [to_string_false]
    simp only [List.mem_cons, not_or]
    exact ⟨by decide, by decide, h⟩
  · rw [to_string_true]
    simp only [List.mem_cons, not_or]
    exact ⟨by decide, by decide, h⟩

theorem to_string_getLast_ne_cr {t : Task} (h : trim t.summary = t.summary) :
    t.to_string.getLast? ≠ some '\r' := by
  obtain ⟨S, c⟩ := t
  have he := trimEnd_eq_self_of_trim h
  rcases S.eq_nil_or_concat with rfl | ⟨S', d, rfl⟩
  · cases c <;> decide
  · simp only [List.concat_eq_append] at he ⊢
    have hd : ¬ isRustWhitespace d = true := by
      have := List.rdropWhile_eq_self_iff.mp he (by simp)
      rwa [List.getLast_append] at this
    have hd' : d ≠ '\r' := by
      intro e
      exact hd (e ▸ (by decide))
    cases c
    · rw [to_string_false, show ' ' :: ' ' :: (S' ++ [d]) = (' ' :: ' ' :: S') ++ [d] by simp,
        List.getLast?_concat]
      simpa using hd'
    · rw [to_string_true, show 'x' :: ' ' :: (S' ++ [d]) = ('x' :: ' ' :: S') ++ [d] by simp,
        List.getLast?_concat]
      simpa using hd'

theorem to_string_not_isEmpty (t : Task) : (!t.to_string.isEmpty) = true := by
  obtain ⟨S, c⟩ := t
  cases c <;> rfl

theorem from_str_total (s : List Char) : ∃ t, Task.from_str s = .ok t := by
  rw [from_str_eq]
  by_cases h : (trim s).head? = some 'x'
  · rw [if_pos h]
    exact ⟨_, rfl⟩
  · rw [if_neg h]
    exact ⟨_, rfl⟩

theorem parseTasks_ok (ls : List (List Char)) : ∃ ts, parseTasks ls = .ok ts := by
  induction ls with
  | nil => exact ⟨[], rfl⟩
  | cons l ls ih =>
    obtain ⟨ts, hts⟩ := ih
    obtain ⟨t, ht⟩ := from_str_total l
    rw [parseTasks, ht, hts]
    exact ⟨_, rfl⟩

theorem parseContents_cons_nl (d : List Char) :
    parseContents ('\n' :: d) = parseContents d := by
  rw [parseContents, parseContents, rustLines, splitInclNl_cons_nl, List.map_cons,
    show lineMap ['\n'] = [] from rfl]
  simp [List.filter_cons]
  rfl

theorem select_next_lt {a : App} {N : Nat} (hN : a.todo_file.tasks.length = N)
    (h1 : 1 ≤ N) :
    ∃ b, a.select_next = some b ∧ b.todo_file = a.todo_file ∧
      ∀ j, b.mode = .select j → j < N := by
  obtain ⟨tf, m, r, d⟩ := a
  cases m with
  | select i =>
    rw [App.select_next]
    simp only
    rw [if_neg (show ¬(tf.tasks.length = 0) from by simp at hN; omega)]
    refine ⟨_, rfl, rfl, fun j hj => ?_⟩
    cases hj
    simp at hN
    omega
  | view =>
    refine ⟨_, rfl, rfl, fun j hj => ?_⟩
    cases hj
    simp at hN
    omega
  | edit i cur txt =>
    refine ⟨_, rfl, rfl, fun j hj => ?_⟩
    cases hj
    simp at hN
    omega

theorem insertAtByte_cons_succ (d : Char) (rest : List Char) (j : Nat) (c : Char) :
    insertAtByte (d :: rest) (j + 1) c =
      if j + 1 < utf8Len d then none
      else (insertAtByte rest (j + 1 - utf8Len d) c).map (fun r => d :: r) := rfl

theorem removeAtByte_cons_succ (d : Char) (rest : List Char) (j : Nat) :
    removeAtByte (d :: rest) (j + 1) =
      if j + 1 < utf8Len d then none
      else (removeAtByte rest (j + 1 - utf8Len d)).map (fun r => d :: r) := rfl

theorem utf8Len_pos (c : Char) : 1 ≤ utf8Len c := by
  rw [utf8Len]
  split_ifs <;> omega

theorem utf8Len_of_ascii {c : Char} (h : isAscii c = true) : utf8Len c = 1 := by
  rw [utf8Len, if_pos (of_decide_eq_true h)]

theorem byteLen_ascii {l : List Char} (h : ∀ c ∈ l, isAscii c = true) :
    byteLen l = l.length := by
  induction l with
  | nil => rfl
  | cons c l ih =>
    rw [byteLen, utf8Len_of_ascii (h c (List.mem_cons_self c l)),
      ih (fun x hx => h x (List.mem_cons_of_mem _ hx)), List.length_cons]
    omega

theorem insertAtByte_some {l : List Char} {i : Nat} {c : Char} {l' : List Char}
    (h : insertAtByte l i c = some l') :
    i ≤ byteLen l ∧ byteLen l' = byteLen l + utf8Len c := by
  induction l generalizing i l' with
  | nil =>
    cases i with
    | zero =>
      cases h
      exact ⟨Nat.le_refl _, by rw [byteLen, byteLen, byteLen]; omega⟩
    | succ j => exact Option.noConfusion h
  | cons d rest ih =>
    cases i with
    | zero =>
      cases h
      exact ⟨Nat.zero_le _, by rw [byteLen, byteLen]; omega⟩
    | succ j =>
      rw [insertAtByte_cons_succ] at h
      split at h
      · exact Option.noConfusion h
      · rename_i hge
        rcases hmap : insertAtByte rest (j + 1 - utf8Len d) c with _ | r
        · rw [hmap] at h
          exact Option.noConfusion h
        · rw [hmap] at h
          cases h
          obtain ⟨h1, h2⟩ := ih hmap
          rw [byteLen, byteLen, h2]
          omega

theorem removeAtByte_some {l : List Char} {i : Nat} {l' : List Char}
    (h : removeAtByte l i = some l') :
    ∃ d, byteLen l = byteLen l' + utf8Len d ∧ i ≤ byteLen l' := by
  induction l generalizing i l' with
  | nil => exact Option.noConfusion h
  | cons d rest ih =>
    cases i with
    | zero =>
      cases h
      exact ⟨d, by rw [byteLen]; omega, Nat.zero_le _⟩
    | succ j =>
      rw [removeAtByte_cons_succ] at h
      split at h
      · exact Option.noConfusion h
      · rename_i hge
        rcases hmap : removeAtByte rest (j + 1 - utf8Len d) with _ | r
        · rw [hmap] at h
          exact Option.noConfusion h
        · rw [hmap] at h
          cases h
          obtain ⟨e, h1, h2⟩ := ih hmap
          refine ⟨e, ?_, ?_⟩
          · rw [byteLen, byteLen, h1]
            omega
          · rw [byteLen]
            omega

theorem insertAtByte_ascii {l : List Char} {i : Nat} (c : Char)
    (h : ∀ x ∈ l, isAscii x = true) (hi : i ≤ l.length) :
    insertAtByte l i c = some (List.insertIdx i c l) := by
  induction l generalizing i with
  | nil =>
    cases i with
    | zero => rfl
    | succ j => simp at hi
  | cons d rest ih =>
    cases i with
    | zero => rfl
    | succ j =>
      have hd := utf8Len_of_ascii (h d (List.mem_cons_self d rest))
      rw [insertAtByte_cons_succ, if_neg (by omega),
        ih (fun x hx => h x (List.mem_cons_of_mem _ hx)) (by simp at hi; omega)]
      rw [hd]
      rfl

theorem removeAtByte_ascii {l : List Char} {i : Nat}
    (h : ∀ x ∈ l, isAscii x = true) (hi : i < l.length) :
    removeAtByte l i = some (l.eraseIdx i) := by
  induction l generalizing i with
  | nil => simp at hi
  | cons d rest ih =>
    cases i with
    | zero => rfl
    | succ j =>
      have hd := utf8Len_of_ascii (h d (List.mem_cons_self d rest))
      rw [removeAtByte_cons_succ, if_neg (by omega),
        ih (fun x hx => h x (List.mem_cons_of_mem _ hx)) (by simp at hi; omega)]
      rw [hd]
      rfl

theorem splitInclNl_ne_nil {s : List Char} (h : s ≠ []) : splitInclNl s ≠ [] := by
  match s with
  | c :: rest =>
    rw [splitInclNl]
    split
    · exact List.cons_ne_nil _ _
    · split <;> exact List.cons_ne_nil _ _

theorem splitInclNl_append_nl (s t : List Char) :
    splitInclNl (s ++ '
' :: t) = splitInclNl (s ++ ['
']) ++ splitInclNl t := by
  induction s with
  | nil =>
    rw [List.nil_append, List.nil_append]
    rw [show splitInclNl ['
'] = [['
']] from rfl]
    rw [splitInclNl]
    simp
  | cons c s ih =>
    by_cases hc : c = '
'
    · subst hc
      rw [List.cons_append, List.cons_append]
      rw [splitInclNl]
      simp only [if_pos rfl]
      rw [ih]
      conv =>
        rhs
        rw [splitInclNl]
      simp
    · rcases hsp : splitInclNl (s ++ ['
']) with _ | ⟨hd, tl⟩
      · exact absurd hsp (splitInclNl_ne_nil (by simp))
      · rw [List.cons_append, splitInclNl, if_neg hc, ih, hsp]
        conv =>
          rhs
          rw [List.cons_append, splitInclNl]
        rw [if_neg hc, hsp]
        rfl


theorem parseContents_double_nl (c₁ c₂ : List Char) :
    parseContents (c₁ ++ '\n' :: '\n' :: c₂) = parseContents (c₁ ++ '\n' :: c₂) := by
  rw [parseContents, parseContents, rustLines, rustLines,
    splitInclNl_append_nl c₁ ('\n' :: c₂), splitInclNl_append_nl c₁ c₂,
    splitInclNl_cons_nl, List.map_append, List.map_append, List.map_cons,
    show lineMap ['\n'] = [] from rfl, List.filter_append, List.filter_append,
    List.filter_cons]
  simp

theorem filter_discards_empty_line (ls₁ ls₂ : List (List Char)) :
    (ls₁ ++ [] :: ls₂).filter (fun l => !l.isEmpty) =
      (ls₁ ++ ls₂).filter (fun l => !l.isEmpty) := by
  rw [List.filter_append, List.filter_append, List.filter_cons]
  simp


theorem editInv_of_select_mode {b : App} {j : Nat} (h : b.mode = .select j) :
    EditInv b := by
  intro i cur txt hm
  rw [h] at hm
  exact Mode.noConfusion hm

theorem editInv_select_last {a b : App} (h : a.select_last = some b) : EditInv b := by
  rw [App.select_last] at h
  split at h
  · exact Option.noConfusion h
  · cases h
    exact editInv_of_select_mode rfl

theorem editInv_select_next {a b : App} (h : a.select_next = some b) : EditInv b := by
  rw [App.select_next] at h
  split at h
  · split at h
    · exact Option.noConfusion h
    · cases h
      exact editInv_of_select_mode rfl
  · cases h
    exact editInv_of_select_mode rfl

theorem editInv_select_prev (a : App) : EditInv a.select_prev := by
  obtain ⟨tf, m, r, d⟩ := a
  cases m with
  | view => exact editInv_of_select_mode rfl
  | select _ => exact editInv_of_select_mode rfl
  | edit _ _ _ => exact editInv_of_select_mode rfl

theorem editInv_complete_selected {a b : App} (ha : EditInv a)
    (h : a.complete_selected = some b) : EditInv b := by
  rw [App.complete_selected] at h
  split at h
  · split at h
    · cases h
      exact fun i cur txt hm => ha i cur txt hm
    · exact Option.noConfusion h
  · cases h
    exact ha

theorem editInv_delete_selected {a b : App} (ha : EditInv a)
    (h : a.delete_selected = some b) : EditInv b := by
  rw [App.delete_selected] at h
  split at h
  · split at h
    · cases h
      exact fun i cur txt hm => ha i cur txt hm
    · exact Option.noConfusion h
  · cases h
    exact ha

theorem editInv_edit_task {a b : App} (h : a.edit_task = some b) : EditInv b := by
  rw [App.edit_task] at h
  split at h
  · cases h
    intro i cur txt hm
    cases hm
    exact Nat.le_refl _
  · exact Option.noConfusion h

theorem editInv_add_edit_task {a b : App} {idx : Nat} (h : a.add_edit_task idx = some b) :
    EditInv b := by
  rw [App.add_edit_task] at h
  split at h
  · cases h
    intro i cur txt hm
    cases hm
    exact Nat.le_refl _
  · exact Option.noConfusion h

theorem editInv_insert_task {a b : App} (h : a.insert_task = some b) : EditInv b :=
  editInv_add_edit_task h

theorem editInv_append_task {a b : App} (h : a.append_task = some b) : EditInv b :=
  editInv_add_edit_task h

theorem editInv_save_edit {a b : App} (ha : EditInv a) (h : a.save_edit = some b) :
    EditInv b := by
  rw [App.save_edit] at h
  split at h
  · split at h
    · cases h
      exact editInv_of_select_mode rfl
    · exact Option.noConfusion h
  · cases h
    exact fun i cur txt hm => ha i cur txt hm

theorem editInv_cancel_edit (a : App) : EditInv a.cancel_edit := by
  obtain ⟨tf, m, r, d⟩ := a
  cases m with
  | view => exact fun i cur txt hm => Mode.noConfusion hm
  | select _ => exact fun i cur txt hm => Mode.noConfusion hm
  | edit _ _ _ => exact editInv_of_select_mode rfl

set_option maxHeartbeats 1600000 in
theorem handleKey_editInv {a b : App} {k : Key} (ha : EditInv a)
    (hb : a.handleKey k = some b) : EditInv b := by
  obtain ⟨tf, m, r, d⟩ := a
  cases m with
  | view =>
    simp only [App.handleKey] at hb
    cases k <;> simp only [App.handleKeyView] at hb
    all_goals try split_ifs at hb
    all_goals
      first
        | exact editInv_select_next hb
        | exact editInv_select_last hb
        | exact editInv_append_task hb
        | (cases hb; exact editInv_of_select_mode rfl)
        | (cases hb; exact editInv_select_prev _)
        | (cases hb; exact ha)
  | select i =>
    simp only [App.handleKey] at hb
    cases k <;> simp only [App.handleKeySelect] at hb
    all_goals try split_ifs at hb
    all_goals
      first
        | exact editInv_select_next hb
        | exact editInv_select_last hb
        | exact editInv_append_task hb
        | exact editInv_insert_task hb
        | exact editInv_edit_task hb
        | exact editInv_complete_selected ha hb
        | exact editInv_delete_selected ha hb
        | (cases hb; exact editInv_of_select_mode rfl)
  | edit item cursor text =>
    have hct : cursor ≤ byteLen text := ha item cursor text rfl
    simp only [App.handleKey] at hb
    cases k <;> simp only [App.handleKeyEdit] at hb
    case esc =>
      cases hb
      exact editInv_cancel_edit _
    case enter => exact editInv_save_edit ha hb
    case char c =>
      rcases hins : insertAtByte text cursor c with _ | t
      · rw [hins] at hb
        exact Option.noConfusion hb
      · rw [hins] at hb
        cases hb
        obtain ⟨hle, hlen⟩ := insertAtByte_some hins
        intro i' cur' txt' hm
        cases hm
        have hp := utf8Len_pos c
        omega
    case backspace =>
      split at hb
      · rcases hrem : removeAtByte text (cursor - 1) with _ | t
        · rw [hrem] at hb
          exact Option.noConfusion hb
        · rw [hrem] at hb
          cases hb
          obtain ⟨e, hsum, hle⟩ := removeAtByte_some hrem
          intro i' cur' txt' hm
          cases hm
          omega
      · cases hb
        exact ha
    case del =>
      split at hb
      · rcases hrem : removeAtByte text cursor with _ | t
        · rw [hrem] at hb
          exact Option.noConfusion hb
        · rw [hrem] at hb
          cases hb
          obtain ⟨e, hsum, hle⟩ := removeAtByte_some hrem
          intro i' cur' txt' hm
          cases hm
          omega
      · cases hb
        exact ha
    case left =>
      split at hb
      · cases hb
        intro i' cur' txt' hm
        cases hm
        omega
      · cases hb
        exact ha
    case right =>
      split at hb
      · rename_i hlt
        cases hb
        intro i' cur' txt' hm
        cases hm
        omega
      · cases hb
        exact ha
    all_goals
      cases hb
      exact ha


theorem asciiTextKey_step {a : App} {i : Nat} {k : Key} (hk : asciiTextKey k = true)
    {cur : Nat} {txt : List Char} (hm : a.mode = .edit i cur txt)
    (hc : cur ≤ txt.length) (hA : ∀ x ∈ txt, isAscii x = true) :
    ∃ b, a.handleKey k = some b ∧ b.todo_file = a.todo_file ∧
      b.is_running = a.is_running ∧ b.is_dirty = a.is_dirty ∧
      ∃ cur' txt', b.mode = .edit i cur' txt' ∧ cur' ≤ txt'.length ∧
        ∀ x ∈ txt', isAscii x = true := by
  obtain ⟨tf, m, r, d⟩ := a
  cases hm
  have hbl : byteLen txt = txt.length := byteLen_ascii hA
  cases k <;> simp only [asciiTextKey] at hk
  all_goals try exact absurd hk (by decide)
  · -- backspace
    simp only [App.handleKey, App.handleKeyEdit]
    rcases Nat.eq_zero_or_pos cur with rfl | hpos
    · exact ⟨_, rfl, rfl, rfl, rfl, 0, txt, rfl, hc, hA⟩
    · rw [if_pos hpos, removeAtByte_ascii hA (by omega)]
      refine ⟨_, rfl, rfl, rfl, rfl, cur - 1, _, rfl, ?_, ?_⟩
      · rw [List.length_eraseIdx_of_lt (by omega)]
        omega
      · exact fun x hx => hA x (List.mem_of_mem_eraseIdx hx)
  · -- del
    simp only [App.handleKey, App.handleKeyEdit]
    rcases Nat.lt_or_ge cur txt.length with hlt | hge
    · rw [if_pos (by omega), removeAtByte_ascii hA hlt]
      refine ⟨_, rfl, rfl, rfl, rfl, cur, _, rfl, ?_, ?_⟩
      · rw [List.length_eraseIdx_of_lt (by omega)]
        omega
      · exact fun x hx => hA x (List.mem_of_mem_eraseIdx hx)
    · rw [if_neg (by omega)]
      exact ⟨_, rfl, rfl, rfl, rfl, cur, txt, rfl, hc, hA⟩
  · -- left
    simp only [App.handleKey, App.handleKeyEdit]
    rcases Nat.eq_zero_or_pos cur with rfl | hpos
    · exact ⟨_, rfl, rfl, rfl, rfl, 0, txt, rfl, hc, hA⟩
    · rw [if_pos hpos]
      exact ⟨_, rfl, rfl, rfl, rfl, cur - 1, txt, rfl, by omega, hA⟩
  · -- right
    simp only [App.handleKey, App.handleKeyEdit]
    rcases Nat.lt_or_ge cur txt.length with hlt | hge
    · rw [if_pos (by omega)]
      exact ⟨_, rfl, rfl, rfl, rfl, cur + 1, txt, rfl, by omega, hA⟩
    · rw [if_neg (by omega)]
      exact ⟨_, rfl, rfl, rfl, rfl, cur, txt, rfl, hc, hA⟩
  · -- char c
    simp only [App.handleKey, App.handleKeyEdit]
    rw [insertAtByte_ascii _ hA hc]
    refine ⟨_, rfl, rfl, rfl, rfl, cur + 1, _, rfl, ?_, ?_⟩
    · rw [List.length_insertIdx _ _ hc]
      omega
    · intro x hx
      rcases (List.mem_insertIdx hc).mp hx with rfl | hx
      · exact hk
      · exact hA x hx

theorem asciiTextKeys_run {i : Nat} (ops : List Key)
    (hops : ∀ k ∈ ops, asciiTextKey k = true) :
    ∀ (a : App) (cur : Nat) (txt : List Char), a.mode = .edit i cur txt →
      cur ≤ txt.length → (∀ x ∈ txt, isAscii x = true) →
      ∃ b, a.handleKeys ops = some b ∧ b.todo_file = a.todo_file ∧
        b.is_running = a.is_running ∧ b.is_dirty = a.is_dirty ∧
        ∃ cur' txt', b.mode = .edit i cur' txt' ∧ cur' ≤ txt'.length ∧
          ∀ x ∈ txt', isAscii x = true := by
  induction ops with
  | nil =>
    intro a cur txt hm hc hA
    exact ⟨a, rfl, rfl, rfl, rfl, cur, txt, hm, hc, hA⟩
  | cons k ops ih =>
    intro a cur txt hm hc hA
    obtain ⟨b, hb, htf, hr, hd, cur', txt', hbm, hbc, hbA⟩ :=
      asciiTextKey_step (hops k (List.mem_cons_self k ops)) hm hc hA
    obtain ⟨c, hc', htf', hr', hd', cur'', txt'', hcm, hcc, hcA⟩ :=
      ih (fun u hu => hops u (List.mem_cons_of_mem _ hu)) b cur' txt' hbm hbc hbA
    refine ⟨c, ?_, by rw [htf', htf], by rw [hr', hr], by rw [hd', hd],
      cur'', txt'', hcm, hcc, hcA⟩
    rw [App.handleKeys, hb]
    exact hc'

/-- Claim C1, counterexample: the round-trip claim fails as stated.  The
pending task with summary "x" (free of line terminators) serializes to the
line "  x", which re-parses as a completed task with empty summary. -/
theorem c1_round_trip_counterexample :
    parseContents (serializeTasks [⟨['x'], false⟩]) = .ok [⟨[], true⟩] ∧
    parseContents (serializeTasks [⟨['x'], false⟩]) ≠ .ok [⟨['x'], false⟩] :=
  ⟨rfl, by decide⟩

/-- Claim C1, amended: for every sequence of task records whose summaries
contain no newline, are trimmed (no leading or trailing whitespace), and,
when pending, do not start with the character x, formatting each record to
its line (as save does) and re-parsing those lines (as load does) yields the
original sequence. -/
theorem c1_round_trip (ts : List Task)
    (h : ∀ t ∈ ts, '\n' ∉ t.summary ∧ trim t.summary = t.summary ∧
      (t.completed = false → t.summary.head? ≠ some 'x')) :
    parseContents (serializeTasks ts) = .ok ts := by
  induction ts with
  | nil => rfl
  | cons t ts ih =>
    obtain ⟨h1, h2, h3⟩ := h t (List.mem_cons_self t ts)
    have hrest := ih (fun u hu => h u (List.mem_cons_of_mem _ hu))
    rw [parseContents] at hrest ⊢
    rw [show serializeTasks (t :: ts) = t.to_string ++ '\n' :: serializeTasks ts from rfl,
      rustLines_append _ (nl_not_mem_to_string h1) (to_string_getLast_ne_cr h2)]
    have hfil : List.filter (fun l => !l.isEmpty) (t.to_string :: rustLines (serializeTasks ts)) =
        t.to_string :: List.filter (fun l => !l.isEmpty) (rustLines (serializeTasks ts)) := by
      simp [List.filter_cons, to_string_not_isEmpty t]
    rw [hfil]
    simp only [parseTasks, from_str_to_string h2 h3, hrest]

/-- Claim C1, witness: the amended round trip evaluated on a concrete
two-record sequence. -/
theorem c1_round_trip_witness :
    parseContents (serializeTasks
      [⟨"buy milk".data, true⟩, ⟨"cook dinner".data, false⟩]) =
      .ok [⟨"buy milk".data, true⟩, ⟨"cook dinner".data, false⟩] :=
  c1_round_trip _ (by decide)

/-- Claim C2: after delete_selected empties a single-element sequence the
state is Select 0 over an empty list; from there select_next panics (debug
underflow of tasks.len() - 1) and complete_selected panics (out-of-bounds
indexing), both modelled as none, while the claim requires such calls not to
fail.  The source marks this with a TOFIX comment, so the code, not the
claim, is wrong. -/
theorem c2_empty_selection_crash :
    App.delete_selected ⟨⟨[], [Task.default]⟩, .select 0, true, false⟩ =
      some ⟨⟨[], []⟩, .select 0, true, true⟩ ∧
    App.select_next ⟨⟨[], []⟩, .select 0, true, true⟩ = none ∧
    App.complete_selected ⟨⟨[], []⟩, .select 0, true, true⟩ = none :=
  ⟨rfl, rfl, rfl⟩

/-- Claim C3, counterexample: the line xylophone begins with x not followed
by whitespace, yet it parses to a completed task with summary ylophone, not
to a pending task with the line as summary. -/
theorem c3_parse_x_counterexample :
    Task.from_str "xylophone".data = .ok ⟨"ylophone".data, true⟩ ∧
    Task.from_str "xylophone".data ≠ .ok ⟨"xylophone".data, false⟩ :=
  ⟨rfl, by decide⟩

/-- Claim C3, amended: a stored line parses to a completed task exactly when
its trimmed text begins with the character x, whether or not whitespace
follows; every other line parses to a pending task whose summary is the
trimmed text. -/
theorem c3_completed_iff_trimmed_x (s : List Char) :
    ∃ t, Task.from_str s = .ok t ∧
      (t.completed = true ↔ (trim s).head? = some 'x') ∧
      (t.completed = false → t.summary = trim s) := by
  by_cases h : (trim s).head? = some 'x'
  · refine ⟨⟨trim ((trim s).drop 1), true⟩, ?_, ?_, ?_⟩
    · rw [from_str_eq, if_pos h]
    · simpa using h
    · intro hc
      cases hc
  · refine ⟨⟨trim s, false⟩, ?_, ?_, fun _ => rfl⟩
    · rw [from_str_eq, if_neg h]
    · constructor
      · intro hc
        cases hc
      · intro hh
        exact absurd hh h

/-- Claim C4: Task::from_str implements parseLine exactly as the
specification words it: trim the line, test for a leading lowercase x, and
for completed records re-trim the remainder; otherwise keep the full
trimmed text.  Only the lowercase character x is tested, so an uppercase X
never marks completion. -/
theorem c4_parse_line_refines_spec (s : List Char) :
    Task.from_str s = .ok (specParseLine s) := by
  rw [from_str_eq, specParseLine]
  by_cases h : (trim s).head? = some 'x'
  · rw [if_pos h]
    simp only [if_pos h]
  · rw [if_neg h]
    simp only [if_neg h]

/-- Claim C5: line parsing is total (never an error); loading a missing file
writes an empty file and returns the empty sequence; loading any existing
content succeeds; and empty lines anywhere are discarded before parsing and
never produce a record: an empty line at any position among the lines is
dropped, a doubled newline anywhere in the content parses like a single one,
and so does a leading newline. -/
theorem c5_load_total_and_empty_lines :
    (∀ s, ∃ t, Task.from_str s = .ok t) ∧
    loadFile none = .ok ⟨[], []⟩ ∧
    (∀ c, ∃ r, loadFile (some c) = .ok r) ∧
    (∀ ls₁ ls₂ : List (List Char),
      parseTasks ((ls₁ ++ [] :: ls₂).filter (fun l => !l.isEmpty)) =
        parseTasks ((ls₁ ++ ls₂).filter (fun l => !l.isEmpty))) ∧
    (∀ c₁ c₂, parseContents (c₁ ++ '\n' :: '\n' :: c₂) =
      parseContents (c₁ ++ '\n' :: c₂)) ∧
    (∀ c, parseContents ('\n' :: c) = parseContents c) := by
  refine ⟨from_str_total, rfl, fun c => ?_,
    fun ls₁ ls₂ => by rw [filter_discards_empty_line],
    parseContents_double_nl, parseContents_cons_nl⟩
  obtain ⟨ts, hts⟩ := parseTasks_ok ((rustLines c).filter (fun l => !l.isEmpty))
  refine ⟨⟨ts, c⟩, ?_⟩
  rw [loadFile, show parseContents c = .ok ts from hts]

/-- Claim C6, counterexample: on an empty sequence (length N = 0) a
select_next call from View mode enters Select 0, producing a selection index
that is not below N. -/
theorem c6_selection_clamping_counterexample :
    App.select_next ⟨⟨[], []⟩, .view, true, false⟩ =
      some ⟨⟨[], []⟩, .select 0, true, false⟩ ∧
    (⟨⟨[], []⟩, .view, true, false⟩ : App).todo_file.tasks.length = 0 :=
  ⟨rfl, rfl⟩

/-- Claim C6, amended: for a task sequence of non-zero length N, repeated
select_next calls from any starting state succeed and never produce a
selection index of N or more; select_prev moves from Select i to
Select (i - 1) in truncated subtraction, so it clamps at 0 and never
produces a negative index; and from any non-selecting mode either operation
enters Select 0. -/
theorem c6_selection_clamping (N : Nat) (a : App)
    (hN : a.todo_file.tasks.length = N) (h1 : 1 ≤ N) :
    (∀ k, ∃ b, selNexts k a = some b ∧ b.todo_file.tasks.length = N ∧
      (1 ≤ k → ∀ j, b.mode = .select j → j < N)) ∧
    (∀ (b : App) (i : Nat), b.mode = .select i → b.select_prev.mode = .select (i - 1)) ∧
    (∀ b : App, (∀ i, b.mode ≠ .select i) →
      b.select_next = some { b with mode := .select 0 } ∧
      b.select_prev = { b with mode := .select 0 }) := by
  refine ⟨?_, ?_, ?_⟩
  · intro k
    induction k generalizing a with
    | zero => exact ⟨a, rfl, hN, by omega⟩
    | succ k ih =>
      obtain ⟨b, hb, htf, hbj⟩ := select_next_lt hN h1
      have hbN : b.todo_file.tasks.length = N := by rw [htf]; exact hN
      obtain ⟨c, hc, hcN, hcj⟩ := ih b hbN
      refine ⟨c, ?_, hcN, fun _ j hj => ?_⟩
      · rw [selNexts, hb]
        exact hc
      · rcases Nat.eq_zero_or_pos k with rfl | hk
        · rw [selNexts] at hc
          cases hc
          exact hbj j hj
        · exact hcj hk j hj
  · intro b i h
    obtain ⟨tf, m, r, d⟩ := b
    cases h
    rfl
  · intro b h
    obtain ⟨tf, m, r, d⟩ := b
    cases m with
    | view => exact ⟨rfl, rfl⟩
    | select i => exact absurd rfl (h i)
    | edit i cur txt => exact ⟨rfl, rfl⟩

/-- Claim C6, witness: the amended clamping statement evaluated on a
one-task sequence starting from View mode. -/
theorem c6_selection_clamping_witness :
    (∀ k, ∃ b, selNexts k ⟨⟨[], [Task.default]⟩, .view, true, false⟩ = some b ∧
      b.todo_file.tasks.length = 1 ∧
      (1 ≤ k → ∀ j, b.mode = .select j → j < 1)) ∧
    (∀ (b : App) (i : Nat), b.mode = .select i → b.select_prev.mode = .select (i - 1)) ∧
    (∀ b : App, (∀ i, b.mode ≠ .select i) →
      b.select_next = some { b with mode := .select 0 } ∧
      b.select_prev = { b with mode := .select 0 }) :=
  c6_selection_clamping 1 ⟨⟨[], [Task.default]⟩, .view, true, false⟩ rfl (by decide)

/-- Claim C7, counterexample: the cursor is a byte index, so with multi-byte
characters the text-buffer operations panic rather than behave as claimed.
Typing the two-byte character é into an empty buffer (entered with cursor 0,
as add_edit_task does) leaves the cursor one byte into the character: the
next character insertion panics instead of shifting the cursor right by one.
Likewise, editing a task whose summary is é starts at cursor 2 (its byte
length, as edit_task does), and backspace panics on the non-boundary index 1
instead of deleting the character before the cursor. -/
theorem c7_edit_invariant_counterexample :
    App.handleKey ⟨⟨[], []⟩, .edit 0 0 [], true, false⟩ (.char 'é') =
      some ⟨⟨[], []⟩, .edit 0 1 ['é'], true, false⟩ ∧
    App.handleKey ⟨⟨[], []⟩, .edit 0 1 ['é'], true, false⟩ (.char 'a') = none ∧
    App.edit_task ⟨⟨[], [⟨['é'], false⟩]⟩, .select 0, true, false⟩ =
      some ⟨⟨[], [⟨['é'], false⟩]⟩, .edit 0 2 ['é'], true, false⟩ ∧
    App.handleKey ⟨⟨[], [⟨['é'], false⟩]⟩, .edit 0 2 ['é'], true, false⟩ .backspace =
      none :=
  ⟨rfl, rfl, rfl, rfl⟩

/-- Claim C7, amended: the numeric invariant, cursor at most the byte length
of the buffer, holds on entry (edit_task starts at the byte length,
add_edit_task at 0 over the empty buffer) and is preserved by every
successful key event; and on buffers of single-byte (ASCII) characters,
where byte and character indices coincide, the text-buffer operations behave
as originally claimed: character insertion shifts the cursor right by one,
backspace is a no-op at cursor 0, forward delete is a no-op at the end of
the buffer, and the cursor moves are clamped to the buffer bounds. -/
theorem c7_edit_invariant :
    (∀ a b : App, a.edit_task = some b → EditInv b) ∧
    (∀ (a : App) (idx : Nat) (b : App), a.add_edit_task idx = some b → EditInv b) ∧
    (∀ (a b : App) (k : Key), EditInv a → a.handleKey k = some b → EditInv b) ∧
    (∀ (a : App) (i cur : Nat) (txt : List Char), a.mode = .edit i cur txt →
      cur ≤ txt.length → (∀ c ∈ txt, isAscii c = true) →
      (∀ c, a.handleKey (.char c) =
        some { a with mode := .edit i (cur + 1) (List.insertIdx cur c txt) }) ∧
      (cur = 0 → a.handleKey .backspace = some a) ∧
      (cur = txt.length → a.handleKey .del = some a) ∧
      (a.handleKey .left = some { a with mode := .edit i (cur - 1) txt }) ∧
      (a.handleKey .right =
        some { a with mode := .edit i (min (cur + 1) txt.length) txt })) := by
  refine ⟨fun a b h => editInv_edit_task h,
    fun a idx b h => editInv_add_edit_task h,
    fun a b k ha hb => handleKey_editInv ha hb,
    fun a i cur txt hm hc hA => ?_⟩
  obtain ⟨tf, m, r, d⟩ := a
  cases hm
  have hbl : byteLen txt = txt.length := byteLen_ascii hA
  refine ⟨fun c => ?_, fun h0 => ?_, fun hend => ?_, ?_, ?_⟩
  · simp only [App.handleKey, App.handleKeyEdit]
    rw [insertAtByte_ascii _ hA hc]
  · subst h0
    rfl
  · subst hend
    simp only [App.handleKey, App.handleKeyEdit]
    rw [hbl, if_neg (by omega)]
  · simp only [App.handleKey, App.handleKeyEdit]
    rcases Nat.eq_zero_or_pos cur with rfl | hpos
    · rfl
    · rw [if_pos hpos]
  · simp only [App.handleKey, App.handleKeyEdit]
    rw [hbl]
    rcases Nat.lt_or_ge cur txt.length with hlt | hge
    · rw [if_pos hlt, Nat.min_eq_left (by omega)]
    · rw [if_neg (by omega), Nat.min_eq_right (by omega)]
      have : cur = txt.length := by omega
      subst this
      rfl

/-- Claim C7, witness: inserting the character z in a concrete Editing state
with cursor 1 in a two-character ASCII buffer shifts the cursor to 2. -/
theorem c7_edit_invariant_witness :
    App.handleKey ⟨⟨[], []⟩, .edit 0 1 ['h', 'i'], true, false⟩ (.char 'z') =
      some ⟨⟨[], []⟩, .edit 0 2 ['h', 'z', 'i'], true, false⟩ :=
  (c7_edit_invariant.2.2.2 ⟨⟨[], []⟩, .edit 0 1 ['h', 'i'], true, false⟩ 0 1 ['h', 'i']
    rfl (by decide) (by decide)).1 'z'

/-- Claim C8, counterexample: the edit-commit run does not always succeed.
Beginning an edit on a record whose summary is the two-byte character é
starts at byte cursor 2, and a backspace in between panics on the
non-boundary index 1, so no commit reaching save_edit ever happens. -/
theorem c8_edit_commit_frame_counterexample :
    App.edit_task ⟨⟨[], [⟨['é'], false⟩]⟩, .select 0, true, false⟩ =
      some ⟨⟨[], [⟨['é'], false⟩]⟩, .edit 0 2 ['é'], true, false⟩ ∧
    App.handleKeys ⟨⟨[], [⟨['é'], false⟩]⟩, .edit 0 2 ['é'], true, false⟩
      [.backspace] = none :=
  ⟨rfl, rfl⟩

/-- Claim C8, amended: from Select i with i in bounds, when the summary of
record i consists of single-byte (ASCII) characters and the text-buffer keys
in between insert only such characters, edit_task followed by those keys and
then save_edit succeeds and changes only the summary of record i: the
resulting task list is the original with the record at i replaced by one
with the same completion flag, the path is unchanged, the state is Select i,
and the document is dirty. -/
theorem c8_edit_commit_frame (a : App) (i : Nat) (ops : List Key)
    (hm : a.mode = .select i) (hi : i < a.todo_file.tasks.length)
    (hA : ∀ x ∈ (a.todo_file.tasks.get ⟨i, hi⟩).summary, isAscii x = true)
    (hops : ∀ k ∈ ops, asciiTextKey k = true) :
    ∃ b c d', a.edit_task = some b ∧ b.handleKeys ops = some c ∧
      c.save_edit = some d' ∧
      ∃ s t₀, a.todo_file.tasks[i]? = some t₀ ∧
        d'.todo_file.tasks = a.todo_file.tasks.set i { t₀ with summary := s } ∧
        d'.todo_file.path = a.todo_file.path ∧
        d'.mode = .select i ∧ d'.is_dirty = true := by
  obtain ⟨tf, m, r, d⟩ := a
  cases hm
  simp only at hi hA
  have hb : App.edit_task ⟨tf, .select i, r, d⟩ =
      some ⟨tf, .edit i (byteLen (tf.tasks.get ⟨i, hi⟩).summary)
        (tf.tasks.get ⟨i, hi⟩).summary, r, d⟩ := by
    rw [App.edit_task]
    simp only
    rw [dif_pos hi]
  have hbl : byteLen (tf.tasks.get ⟨i, hi⟩).summary =
      (tf.tasks.get ⟨i, hi⟩).summary.length := byteLen_ascii hA
  obtain ⟨c, hc', htf', hr', hd', cur'', txt'', hcm, hcc, hcA⟩ :=
    asciiTextKeys_run ops hops
      ⟨tf, .edit i (byteLen (tf.tasks.get ⟨i, hi⟩).summary)
        (tf.tasks.get ⟨i, hi⟩).summary, r, d⟩ _ _ rfl hbl.le hA
  obtain ⟨ctf, cm, cr, cd⟩ := c
  simp only at htf' hcm
  subst htf'
  cases hcm
  have hsave : App.save_edit ⟨ctf, .edit i cur'' txt'', cr, cd⟩ =
      some ⟨⟨ctf.path, ctf.tasks.set i { ctf.tasks.get ⟨i, hi⟩ with summary := txt'' }⟩,
        .select i, cr, true⟩ := by
    rw [App.save_edit]
    simp only
    rw [dif_pos hi]
  refine ⟨_, _, _, hb, hc', hsave, txt'', ctf.tasks.get ⟨i, hi⟩, ?_, rfl, rfl, rfl, rfl⟩
  rw [List.getElem?_eq_getElem hi]
  rfl

/-- Claim C8, witness: editing the only record of a one-record document by
typing the character b and committing yields that record with its summary
replaced, in state Select 0 with the dirty flag set. -/
theorem c8_edit_commit_frame_witness :
    ∃ b c d', App.edit_task ⟨⟨[], [⟨['a'], false⟩]⟩, .select 0, true, false⟩ = some b ∧
      b.handleKeys [.char 'b'] = some c ∧ c.save_edit = some d' ∧
      ∃ s t₀, ([⟨['a'], false⟩] : List Task)[0]? = some t₀ ∧
        d'.todo_file.tasks = ([⟨['a'], false⟩] : List Task).set 0 { t₀ with summary := s } ∧
        d'.todo_file.path = ([] : List Char) ∧
        d'.mode = .select 0 ∧ d'.is_dirty = true :=
  c8_edit_commit_frame ⟨⟨[], [⟨['a'], false⟩]⟩, .select 0, true, false⟩ 0 [.char 'b']
    rfl (by decide) (by decide) (by decide)

/-- Claim C9: invoking save_edit outside Editing mode leaves the task list
and the mode unchanged but still sets the dirty flag, because the code sets
it unconditionally outside the if-let on Edit mode, so a save of an
unmodified document is triggered. -/
theorem c9_save_edit_sets_dirty (a : App)
    (h : ∀ i cur txt, a.mode ≠ .edit i cur txt) :
    a.save_edit = some { a with is_dirty := true } := by
  obtain ⟨tf, m, r, d⟩ := a
  cases m with
  | view => rfl
  | select i => rfl
  | edit i cur txt => exact absurd rfl (h i cur txt)

/-- Claim C9, witness: save_edit in View mode only sets the dirty flag. -/
theorem c9_save_edit_sets_dirty_witness :
    App.save_edit ⟨⟨[], []⟩, .view, true, false⟩ = some ⟨⟨[], []⟩, .view, true, true⟩ :=
  c9_save_edit_sets_dirty ⟨⟨[], []⟩, .view, true, false⟩
    (fun _ _ _ h => Mode.noConfusion h)

/-- Claim C10: cancel_edit never changes the dirty flag, and add_edit_task
inserts a default (empty, pending) record at the index, enters Editing on
it, and leaves the dirty flag unchanged; cancelling afterwards keeps the
placeholder record in the sequence with the dirty flag still unchanged. -/
theorem c10_insert_cancel_preserve_dirty :
    (∀ a : App, a.cancel_edit.is_dirty = a.is_dirty) ∧
    (∀ (a : App) (idx : Nat), idx ≤ a.todo_file.tasks.length →
      ∃ b, a.add_edit_task idx = some b ∧
        b.is_dirty = a.is_dirty ∧
        b.mode = .edit idx 0 [] ∧
        b.todo_file.tasks = List.insertIdx idx Task.default a.todo_file.tasks ∧
        b.todo_file.tasks[idx]? = some Task.default ∧
        b.cancel_edit.is_dirty = a.is_dirty ∧
        b.cancel_edit.todo_file = b.todo_file ∧
        b.cancel_edit.mode = .select idx) := by
  constructor
  · intro a
    obtain ⟨tf, m, r, d⟩ := a
    cases m <;> rfl
  · intro a idx h
    rw [App.add_edit_task, if_pos h]
    refine ⟨_, rfl, rfl, rfl, rfl, ?_, rfl, rfl, rfl⟩
    show (List.insertIdx idx Task.default a.todo_file.tasks)[idx]? = some Task.default
    have hlen : (List.insertIdx idx Task.default a.todo_file.tasks).length =
        a.todo_file.tasks.length + 1 := List.length_insertIdx idx _ h
    rw [List.getElem?_eq_getElem (by omega)]
    rw [List.getElem_insertIdx_self _ _ _ h]

/-- Claim C10, witness: inserting a placeholder at index 0 of an empty
document and cancelling leaves the empty pending record with the dirty flag
still clear. -/
theorem c10_insert_cancel_preserve_dirty_witness :
    (App.cancel_edit ⟨⟨[], []⟩, .edit 0 0 [], true, false⟩).is_dirty = false ∧
    (∃ b, App.add_edit_task ⟨⟨[], []⟩, .view, true, false⟩ 0 = some b ∧
      b.is_dirty = false ∧
      b.mode = .edit 0 0 [] ∧
      b.todo_file.tasks = List.insertIdx 0 Task.default [] ∧
      b.todo_file.tasks[0]? = some Task.default ∧
      b.cancel_edit.is_dirty = false ∧
      b.cancel_edit.todo_file = b.todo_file ∧
      b.cancel_edit.mode = .select 0) :=
  ⟨c10_insert_cancel_preserve_dirty.1 ⟨⟨[], []⟩, .edit 0 0 [], true, false⟩,
    c10_insert_cancel_preserve_dirty.2 ⟨⟨[], []⟩, .view, true, false⟩ 0 (by decide)⟩

end TPlan
